import Mathlib

/-!
Shallow embedding of the MCP-Control-Lite configuration-synchronization
front end (src/src/App.tsx, src/src/components/Settings.tsx,
src/src/components/Logs.tsx) together with spec-modelled definitions for
the Rust backend operations that the repository only calls through
`invoke` (sync coordinator, registry toggles, application adapters).
-/

namespace MCPControl

/-- The per-application sync state, from `src/unnamed/part_000`
(`syncStatus?: 'synced' | 'pending' | 'conflict' | 'error'`). -/
inductive SyncStatus where
  | synced
  | pending
  | conflict
  | error
deriving DecidableEq, Repr

/-- An MCP server record, from the `MCPServer` interface in
`src/unnamed/part_000`. -/
structure MCPServer where
  name : String
  enabled : Bool
  command : Option String
  args : Option (List String)
  env : Option (List (String × String))
  application : String
deriving DecidableEq, Repr

/-! ## Server consolidation (`loadData` in src/src/App.tsx) -/

/-- The comparator used by `serversData.sort` in `loadData`: compare by
server name first, then by application name. -/
def serverLe (s t : MCPServer) : Prop :=
  s.name < t.name ∨ (s.name = t.name ∧ s.application ≤ t.application)

instance : DecidableRel serverLe := fun s t => by
  unfold serverLe; infer_instance

/-- `serversData.sort((a, b) => ...)` in `loadData`, modelled with
insertion sort under the code's comparator. -/
def sortServers (l : List MCPServer) : List MCPServer :=
  l.insertionSort serverLe

/-- `enabledAppsSettings[server.application] !== false` in `loadData`. -/
def keepApp (es : List (String × Bool)) (app : String) : Bool :=
  match List.lookup app es with
  | some false => false
  | _ => true

/-- `filteredServers` in `loadData`: keep a server unless the settings map
`enabledApps` (defaulted to the empty map by `settingsData.enabledApps || {}`)
maps its application to `false`. -/
def filterServers (es : Option (List (String × Bool))) (l : List MCPServer) :
    List MCPServer :=
  l.filter (fun s => keepApp (es.getD []) s.application)

/-- The record pushed into a consolidated entry's `applications` array in
`loadData` (`{ name: server.application, enabled, command, args }`). -/
structure AppEntry where
  name : String
  enabled : Bool
  command : Option String
  args : Option (List String)
deriving DecidableEq, Repr

/-- One entry of the consolidated view built by `loadData`. -/
structure ConsolidatedServer where
  name : String
  applications : List AppEntry
deriving DecidableEq, Repr

/-- The application record added for one server in `loadData`. -/
def appEntryOf (s : MCPServer) : AppEntry :=
  ⟨s.application, s.enabled, s.command, s.args⟩

/-- `existing.applications.push(...)`: append the record to the first
consolidated entry whose name matches (the entry found by `acc.find`). -/
def pushApp : List ConsolidatedServer → String → AppEntry → List ConsolidatedServer
  | [], _, _ => []
  | c :: cs, n, a =>
    if c.name = n then { c with applications := c.applications ++ [a] } :: cs
    else c :: pushApp cs n a

/-- One step of the `reduce` in `loadData`: either push into the existing
entry of the same name or append a fresh entry. -/
def addServer (acc : List ConsolidatedServer) (s : MCPServer) : List ConsolidatedServer :=
  if acc.any (fun c => c.name = s.name) then pushApp acc s.name (appEntryOf s)
  else acc ++ [⟨s.name, [appEntryOf s]⟩]

/-- The `reduce` in `loadData` that consolidates servers by name. -/
def consolidate (l : List MCPServer) : List ConsolidatedServer :=
  l.foldl addServer []

/-- The registry rebuild performed by `loadData`: sort, then consolidate
by server name. -/
def rebuild (l : List MCPServer) : List ConsolidatedServer :=
  consolidate (sortServers l)

/-- The full consolidated view computed by `loadData`: sort, filter by the
settings' enabled applications, then consolidate. -/
def loadDataView (es : Option (List (String × Bool))) (l : List MCPServer) :
    List ConsolidatedServer :=
  consolidate (filterServers es (sortServers l))

/-! ## Settings (src/src/components/Settings.tsx) -/

/-- `theme: 'light' | 'dark' | 'system'`. -/
inductive Theme where
  | light
  | dark
  | system
deriving DecidableEq, Repr

/-- `backupFrequency: 'daily' | 'weekly' | 'monthly'`. -/
inductive BackupFrequency where
  | daily
  | weekly
  | monthly
deriving DecidableEq, Repr

/-- `logLevel: 'error' | 'warn' | 'info' | 'debug'` in `UserSettings`. -/
inductive SettingsLogLevel where
  | error
  | warn
  | info
  | debug
deriving DecidableEq, Repr

/-- The `UserSettings` interface of Settings.tsx; `enabledApps` is the
nested per-application map, kept as an association list. -/
structure UserSettings where
  autoStart : Bool
  minimizeToTray : Bool
  checkUpdates : Bool
  theme : Theme
  refreshInterval : Int
  backupLocation : String
  backupFrequency : BackupFrequency
  logLevel : SettingsLogLevel
  enableLogs : Bool
  developerMode : Bool
  enabledApps : List (String × Bool)
deriving DecidableEq, Repr

/-- `defaultSettings` of Settings.tsx. -/
def defaultSettings : UserSettings where
  autoStart := false
  minimizeToTray := true
  checkUpdates := true
  theme := .system
  refreshInterval := 10
  backupLocation := ""
  backupFrequency := .weekly
  logLevel := .info
  enableLogs := true
  developerMode := false
  enabledApps :=
    [("Claude Desktop", true), ("Cursor", true), ("Amazon Q Developer", true),
     ("Visual Studio Code", true), ("Zed", false), ("Continue.dev", false)]

/-- A persisted settings document as returned by `get_settings`: any
top-level field may be absent. -/
structure PersistedSettings where
  autoStart : Option Bool
  minimizeToTray : Option Bool
  checkUpdates : Option Bool
  theme : Option Theme
  refreshInterval : Option Int
  backupLocation : Option String
  backupFrequency : Option BackupFrequency
  logLevel : Option SettingsLogLevel
  enableLogs : Option Bool
  developerMode : Option Bool
  enabledApps : Option (List (String × Bool))
deriving DecidableEq, Repr

/-- An entirely empty persisted document (every field absent). -/
def PersistedSettings.empty : PersistedSettings :=
  ⟨none, none, none, none, none, none, none, none, none, none, none⟩

/-- `loadSettings` of Settings.tsx: the shallow spread
`{ ...defaultSettings, ...savedSettings }` — each top-level field present in
the saved document replaces the default wholesale, each absent field keeps
its default. -/
def loadSettings (saved : PersistedSettings) : UserSettings where
  autoStart := saved.autoStart.getD defaultSettings.autoStart
  minimizeToTray := saved.minimizeToTray.getD defaultSettings.minimizeToTray
  checkUpdates := saved.checkUpdates.getD defaultSettings.checkUpdates
  theme := saved.theme.getD defaultSettings.theme
  refreshInterval := saved.refreshInterval.getD defaultSettings.refreshInterval
  backupLocation := saved.backupLocation.getD defaultSettings.backupLocation
  backupFrequency := saved.backupFrequency.getD defaultSettings.backupFrequency
  logLevel := saved.logLevel.getD defaultSettings.logLevel
  enableLogs := saved.enableLogs.getD defaultSettings.enableLogs
  developerMode := saved.developerMode.getD defaultSettings.developerMode
  enabledApps := saved.enabledApps.getD defaultSettings.enabledApps

/-- Deep merge of the nested `enabledApps` map, following the spec's words:
every individual entry missing from the persisted document takes its
hard-coded default value, every entry present takes the persisted value. -/
def deepMergeApps (saved : Option (List (String × Bool))) : List (String × Bool) :=
  match saved with
  | none => defaultSettings.enabledApps
  | some m => defaultSettings.enabledApps.map (fun p => (p.1, (List.lookup p.1 m).getD p.2))

/-- The load described by the claim's words: defaults filled in for missing
fields including fields nested inside `enabledApps`. -/
def loadSettingsDeep (saved : PersistedSettings) : UserSettings :=
  { loadSettings saved with enabledApps := deepMergeApps saved.enabledApps }

/-- The `onChange` handler of the refresh-interval input: stores the parsed
number into settings without any clamping. -/
def setRefreshIntervalInput (s : UserSettings) (n : Int) : UserSettings :=
  { s with refreshInterval := n }

/-- The `min="5"` attribute declared on the refresh-interval input. -/
def refreshInputMin : Int := 5

/-- The `max="300"` attribute declared on the refresh-interval input. -/
def refreshInputMax : Int := 300

/-- The interval passed to `setInterval(loadData, 10000)` in App.tsx,
in milliseconds. -/
def refreshTimerMs : Int := 10000

/-! ## Log filtering (src/src/components/Logs.tsx) -/

/-- `level: 'error' | 'warning' | 'info' | 'debug'` of a log entry. -/
inductive LogLevel where
  | error
  | warning
  | info
  | debug
deriving DecidableEq, Repr

/-- `category: 'server' | 'application' | 'system'` of a log entry. -/
inductive LogCategory where
  | server
  | application
  | system
deriving DecidableEq, Repr

/-- The `LogEntry` interface of Logs.tsx. -/
structure LogEntry where
  id : String
  timestamp : String
  level : LogLevel
  category : LogCategory
  message : String
  details : Option String
deriving DecidableEq, Repr

/-- The `levelFilters` checkbox state. -/
structure LevelFilters where
  error : Bool
  warning : Bool
  info : Bool
  debug : Bool
deriving DecidableEq, Repr

/-- The `categoryFilters` checkbox state. -/
structure CategoryFilters where
  server : Bool
  application : Bool
  system : Bool
deriving DecidableEq, Repr

/-- `levelFilters[log.level]`. -/
def levelOn (f : LevelFilters) : LogLevel → Bool
  | .error => f.error
  | .warning => f.warning
  | .info => f.info
  | .debug => f.debug

/-- `categoryFilters[log.category]`. -/
def categoryOn (f : CategoryFilters) : LogCategory → Bool
  | .server => f.server
  | .application => f.application
  | .system => f.system

/-- Whether `needle` occurs at the start of `hay` (character lists). -/
def leadsWith : List Char → List Char → Bool
  | [], _ => true
  | _ :: _, [] => false
  | a :: as, b :: bs => a == b && leadsWith as bs

/-- Whether `needle` occurs contiguously somewhere in `hay`
(JavaScript `String.prototype.includes`). -/
def hasSub : List Char → List Char → Bool
  | hay, needle =>
    leadsWith needle hay ||
      match hay with
      | [] => false
      | _ :: t => hasSub t needle

/-- `hay.toLowerCase().includes(needle.toLowerCase())`. -/
def containsCI (hay needle : String) : Bool :=
  hasSub hay.toLower.toList needle.toLower.toList

/-- `log.details?.toLowerCase().includes(term)`, where an absent `details`
makes the whole optional chain falsy. -/
def optContainsCI (d : Option String) (needle : String) : Bool :=
  match d with
  | none => false
  | some s => containsCI s needle

/-- The filter predicate inside `filterLogs` of Logs.tsx. -/
def keepLog (lf : LevelFilters) (cf : CategoryFilters) (q : String)
    (e : LogEntry) : Bool :=
  if !(levelOn lf e.level) then false
  else if !(categoryOn cf e.category) then false
  else if !(q == "") && !(containsCI e.message q) && !(optContainsCI e.details q)
    then false
  else true

/-- `filterLogs` of Logs.tsx. -/
def filterLogs (lf : LevelFilters) (cf : CategoryFilters) (q : String)
    (logs : List LogEntry) : List LogEntry :=
  logs.filter (keepLog lf cf q)

/-! ## Sync Coordinator (spec-modelled; the Rust backend behind
`sync_application` is not part of the repository snapshot) -/

/-- Modelled from the spec: the content hash captured in a `SyncRecord`;
abstracted as the content itself (a collision-free hash). -/
def contentHash (s : String) : String := s

/-- Modelled from the spec: the Sync Coordinator's per-application state —
the on-disk file (absent when the application is undetected), the
`SyncRecord` hash captured at the last successful read, the in-memory
edit, and the sync status. The Rust `sync_application` backend is missing
from the snapshot; only its caller `handleSyncApplication` is in src/. -/
structure SyncApp where
  fileContent : Option String
  lastReadHash : Option String
  memContent : String
  syncStatus : SyncStatus
deriving DecidableEq, Repr

/-- Modelled from the spec: `read()` — parses the file, records its
content hash in the `SyncRecord`, loads the content into memory, and sets
`synced`; an absent file leaves the state untouched (undetected, not an
error). -/
def readApp (a : SyncApp) : SyncApp :=
  match a.fileContent with
  | some c =>
      { a with lastReadHash := some (contentHash c), memContent := c,
               syncStatus := .synced }
  | none => a

/-- An in-memory edit made by the caller after a read (e.g. a toggle). -/
def editMem (a : SyncApp) (m : String) : SyncApp :=
  { a with memContent := m }

/-- An out-of-band modification of the on-disk file by another tool. -/
def modifyDisk (a : SyncApp) (c : String) : SyncApp :=
  { a with fileContent := some c }

/-- Modelled from the spec: `syncOne` — recomputes the on-disk hash; if it
matches the `SyncRecord` it writes the in-memory content and sets
`synced`; if not it sets `conflict` and aborts the write; a file that
disappeared is an `error`. -/
def syncOne (a : SyncApp) : SyncApp :=
  match a.fileContent with
  | none => { a with syncStatus := .error }
  | some c =>
      if a.lastReadHash = some (contentHash c) then
        { a with fileContent := some a.memContent,
                 lastReadHash := some (contentHash a.memContent),
                 syncStatus := .synced }
      else { a with syncStatus := .conflict }

/-! ## Server Registry toggle (spec-modelled; the Rust backend behind
`toggle_server` is not part of the repository snapshot) -/

/-- Result of a registry toggle request. -/
inductive ToggleResult where
  | ok
  | notFound
deriving DecidableEq, Repr

/-- Modelled from the spec: the Server Registry state — the consolidated
server records plus each application's sync status. -/
structure Registry where
  servers : List MCPServer
  appStatus : List (String × SyncStatus)
deriving DecidableEq, Repr

/-- Modelled from the spec: `toggle(serverName, appName, enabled)` —
mutates exactly the one per-application entry and marks that application
`pending`; a no-op (not an error) if the entry is already at the requested
value. The Rust `toggle_server` backend is missing from the snapshot. -/
def toggle (r : Registry) (sn an : String) (v : Bool) : Registry × ToggleResult :=
  match r.servers.find? (fun s => s.name == sn && s.application == an) with
  | none => (r, .notFound)
  | some s =>
      if s.enabled = v then (r, .ok)
      else
        ({ servers := r.servers.map (fun t =>
             if t.name == sn && t.application == an then { t with enabled := v } else t),
           appStatus := r.appStatus.map (fun p =>
             if p.1 == an then (p.1, SyncStatus.pending) else p) }, .ok)

/-! ## toggleAll across applications (spec-modelled; per-application
persistence happens in the missing Rust backend) -/

/-- Per-application result of a `toggleAll`. -/
inductive ToggleAllResult where
  | ok
  | error
deriving DecidableEq, Repr

/-- Modelled from the spec: one application's on-disk config as seen by
`toggleAll` — `none` when the application's file is missing (undetected). -/
structure AppConfig where
  name : String
  file : Option (List (String × Bool))
deriving DecidableEq, Repr

/-- Set one server's enabled flag inside one application's config map. -/
def setServerFlag (cfg : List (String × Bool)) (sn : String) (v : Bool) :
    List (String × Bool) :=
  cfg.map (fun p => if p.1 == sn then (p.1, v) else p)

/-- Modelled from the spec: the effect of `toggleAll` on one application —
a missing file leaves the application untouched, a present file gets the
server's flag rewritten and persisted. -/
def applyToggle (sn : String) (v : Bool) (a : AppConfig) : AppConfig :=
  match a.file with
  | none => a
  | some cfg => { a with file := some (setServerFlag cfg sn v) }

/-- Modelled from the spec: the per-application outcome reported by
`toggleAll` — `error` for a missing file, `ok` otherwise. -/
def reportToggle (_sn : String) (_v : Bool) (a : AppConfig) :
    String × ToggleAllResult :=
  match a.file with
  | none => (a.name, .error)
  | some _ => (a.name, .ok)

/-- Modelled from the spec: `toggleAll(serverName, enabled)` — walks the
applications one by one, persisting each independently and collecting one
result per application; a failure never reverts the others. -/
def toggleAll : List AppConfig → String → Bool →
    List (String × ToggleAllResult) × List AppConfig
  | [], _, _ => ([], [])
  | a :: rest, sn, v =>
      let r := toggleAll rest sn v
      (reportToggle sn v a :: r.1, applyToggle sn v a :: r.2)

/-! ## Application Adapter round trip (spec-modelled; the Rust adapters are
not part of the repository snapshot) -/

/-- Modelled from the spec: the native launch spec stored under one server
name in an application's config file. -/
structure ServerSpec where
  command : String
  args : List String
  env : List (String × String)
  enabled : Bool
deriving DecidableEq, Repr

/-- Modelled from the spec: an application's on-disk config document — the
server map plus the fields the adapter does not understand. -/
structure ConfigDoc where
  servers : List (String × ServerSpec)
  unknownFields : List (String × String)
deriving DecidableEq, Repr

/-- Convert one on-disk server entry into the common `MCPServer` record. -/
def toRecord (appName : String) (p : String × ServerSpec) : MCPServer :=
  ⟨p.1, p.2.enabled, some p.2.command, some p.2.args, some p.2.env, appName⟩

/-- Modelled from the spec: `read()` — parses the document into `MCPServer`
records and retains the unknown fields for the next write. -/
def adapterRead (appName : String) (d : ConfigDoc) :
    List MCPServer × List (String × String) :=
  (d.servers.map (toRecord appName), d.unknownFields)

/-- Convert a common `MCPServer` record back into an on-disk entry. -/
def fromRecord (s : MCPServer) : String × ServerSpec :=
  (s.name, ⟨s.command.getD "", s.args.getD [], s.env.getD [], s.enabled⟩)

/-- Modelled from the spec: `write(servers)` — serializes the records and
re-emits every retained unknown field unchanged. -/
def adapterWrite (ss : List MCPServer) (unknown : List (String × String)) :
    ConfigDoc :=
  ⟨ss.map fromRecord, unknown⟩

/-! ## Auxiliary predicates and concrete fixtures -/

/-- The per-application records inside one consolidated entry are in
alphabetical order of application name. -/
def appsSorted (c : ConsolidatedServer) : Prop :=
  (c.applications.map (fun a => a.name)).Sorted (· ≤ ·)

instance (c : ConsolidatedServer) : Decidable (appsSorted c) := by
  unfold appsSorted; infer_instance

/-- A persisted settings document whose `enabledApps` is present but lists
only one of the six applications. -/
def partialDoc : PersistedSettings :=
  { PersistedSettings.empty with enabledApps := some [("Cursor", false)] }

/-- A one-server registry fixture. -/
def regOne : Registry :=
  ⟨[⟨"filesystem", true, some "npx", none, none, "Cursor"⟩], [("Cursor", .synced)]⟩

/-- Three applications, the second of which has no config file, for the
`toggleAll` scenario. -/
def scenarioApps : List AppConfig :=
  [⟨"Claude Desktop", some [("filesystem", true), ("weather", true)]⟩,
   ⟨"Cursor", none⟩,
   ⟨"Visual Studio Code", some [("filesystem", true)]⟩]

/-! ## Helper lemmas -/

theorem keepApp_eq_true (es : List (String × Bool)) (app : String) :
    keepApp es app = true ↔ List.lookup app es ≠ some false := by
  rcases h : List.lookup app es with _ | b
  · simp [keepApp, h]
  · cases b <;> simp [keepApp, h]

theorem optContainsCI_eq_true (d : Option String) (q : String) :
    optContainsCI d q = true ↔ ∃ s, d = some s ∧ containsCI s q = true := by
  cases d <;> simp [optContainsCI]

theorem keepLog_eq_true (lf : LevelFilters) (cf : CategoryFilters) (q : String)
    (e : LogEntry) :
    keepLog lf cf q e = true ↔
      levelOn lf e.level = true ∧ categoryOn cf e.category = true ∧
        (q ≠ "" → (containsCI e.message q = true ∨
          ∃ d, e.details = some d ∧ containsCI d q = true)) := by
  unfold keepLog
  split_ifs with h1 h2 h3
  · simp only [Bool.not_eq_true'] at h1
    simp [h1]
  · simp only [Bool.not_eq_true'] at h2
    simp [h2]
  · simp only [Bool.and_eq_true, Bool.not_eq_true'] at h3
    obtain ⟨⟨hq, hm⟩, hd⟩ := h3
    have hq' : q ≠ "" := by
      intro h; rw [h] at hq; simp at hq
    simp only [Bool.not_eq_true'] at h1 h2
    constructor
    · intro h; cases h
    · rintro ⟨-, -, himp⟩
      rcases himp hq' with hc | ⟨d, hdeq, hdc⟩
      · rw [hc] at hm; cases hm
      · have : optContainsCI e.details q = true := by
          rw [optContainsCI_eq_true]; exact ⟨d, hdeq, hdc⟩
        rw [this] at hd; cases hd
  · simp only [Bool.not_eq_true'] at h1 h2
    push_neg at h1 h2
    simp only [Bool.and_eq_true, Bool.not_eq_true', not_and] at h3
    constructor
    · intro _
      refine ⟨by simpa using h1, by simpa using h2, fun hq => ?_⟩
      by_cases hm : containsCI e.message q = true
      · exact Or.inl hm
      · have hqb : (q == "") = false := by
          simp [hq]
        have hmb : containsCI e.message q = false := by
          simpa using hm
        have hnd := h3 ⟨hqb, hmb⟩
        have hopt : optContainsCI e.details q = true := by
          cases hopt2 : optContainsCI e.details q with
          | false => exact absurd hopt2 hnd
          | true => rfl
        exact Or.inr ((optContainsCI_eq_true _ _).mp hopt)
    · intro _; rfl

theorem pushApp_names (acc : List ConsolidatedServer) (n : String) (a : AppEntry) :
    (pushApp acc n a).map (fun c => c.name) = acc.map (fun c => c.name) := by
  induction acc with
  | nil => rfl
  | cons c cs ih =>
    by_cases h : c.name = n <;> simp [pushApp, h, ih]

theorem any_name_iff (acc : List ConsolidatedServer) (n : String) :
    (acc.any (fun c => c.name = n) = true) ↔ n ∈ acc.map (fun c => c.name) := by
  simp [List.any_eq_true, List.mem_map]

theorem addServer_names (acc : List ConsolidatedServer) (s : MCPServer) :
    (addServer acc s).map (fun c => c.name) =
      if s.name ∈ acc.map (fun c => c.name) then acc.map (fun c => c.name)
      else acc.map (fun c => c.name) ++ [s.name] := by
  by_cases h : s.name ∈ acc.map (fun c => c.name)
  · have hb := (any_name_iff acc s.name).mpr h
    simp [addServer, hb, pushApp_names, h]
  · have hb : (acc.any (fun c => c.name = s.name)) = false := by
      cases hb2 : acc.any (fun c => c.name = s.name) with
      | false => rfl
      | true => exact absurd ((any_name_iff acc s.name).mp hb2) h
    simp [addServer, hb, h]

theorem foldl_addServer_names_nodup :
    ∀ (l : List MCPServer) (acc : List ConsolidatedServer),
      (acc.map (fun c => c.name)).Nodup →
      ((List.foldl addServer acc l).map (fun c => c.name)).Nodup ∧
        ((List.foldl addServer acc l).map (fun c => c.name)).toFinset
          = (acc.map (fun c => c.name)).toFinset
            ∪ (l.map (fun s => s.name)).toFinset
  | [], acc, h => ⟨h, by simp⟩
  | s :: rest, acc, h => by
    rw [List.foldl_cons]
    by_cases hmem : s.name ∈ acc.map (fun c => c.name)
    · have hn : (addServer acc s).map (fun c => c.name)
          = acc.map (fun c => c.name) := by
        rw [addServer_names, if_pos hmem]
      obtain ⟨h1, h2⟩ := foldl_addServer_names_nodup rest (addServer acc s)
        (hn ▸ h)
      refine ⟨h1, ?_⟩
      have hx : s.name ∈ (acc.map (fun c => c.name)).toFinset
          ∪ (rest.map (fun t => t.name)).toFinset :=
        Finset.mem_union_left _ (List.mem_toFinset.mpr hmem)
      rw [h2, hn]
      simp only [List.map_cons, List.toFinset_cons, Finset.union_insert,
        Finset.insert_eq_self.mpr hx]
    · have hn : (addServer acc s).map (fun c => c.name)
          = acc.map (fun c => c.name) ++ [s.name] := by
        rw [addServer_names, if_neg hmem]
      have hnd : ((addServer acc s).map (fun c => c.name)).Nodup := by
        rw [hn]
        simp [List.nodup_append, h, hmem]
      obtain ⟨h1, h2⟩ := foldl_addServer_names_nodup rest (addServer acc s) hnd
      refine ⟨h1, ?_⟩
      rw [h2, hn]
      ext y
      simp only [List.toFinset_append, List.toFinset_cons, List.toFinset_nil,
        List.map_cons, Finset.mem_union, Finset.mem_insert,
        Finset.not_mem_empty, or_false]
      tauto

instance : IsTotal MCPServer serverLe :=
  ⟨fun s t => by
    unfold serverLe
    rcases lt_trichotomy s.name t.name with h | h | h
    · exact Or.inl (Or.inl h)
    · rcases le_total s.application t.application with ha | ha
      · exact Or.inl (Or.inr ⟨h, ha⟩)
      · exact Or.inr (Or.inr ⟨h.symm, ha⟩)
    · exact Or.inr (Or.inl h)⟩

instance : IsTrans MCPServer serverLe :=
  ⟨fun a b c hab hbc => by
    unfold serverLe at hab hbc ⊢
    rcases hab with h1 | ⟨e1, a1⟩
    · rcases hbc with h2 | ⟨e2, a2⟩
      · exact Or.inl (h1.trans h2)
      · exact Or.inl (e2 ▸ h1)
    · rcases hbc with h2 | ⟨e2, a2⟩
      · exact Or.inl (e1.symm ▸ h2)
      · exact Or.inr ⟨e1.trans e2, a1.trans a2⟩⟩

theorem addServer_of_mem (acc : List ConsolidatedServer) (s : MCPServer)
    (h : s.name ∈ acc.map (fun c => c.name)) :
    addServer acc s = pushApp acc s.name (appEntryOf s) := by
  simp [addServer, (any_name_iff acc s.name).mpr h]

theorem addServer_of_notMem (acc : List ConsolidatedServer) (s : MCPServer)
    (h : s.name ∉ acc.map (fun c => c.name)) :
    addServer acc s = acc ++ [⟨s.name, [appEntryOf s]⟩] := by
  have hb : (acc.any (fun c => c.name = s.name)) = false := by
    cases hb2 : acc.any (fun c => c.name = s.name) with
    | false => rfl
    | true => exact absurd ((any_name_iff acc s.name).mp hb2) h
  simp [addServer, hb]

theorem pushApp_mem {acc : List ConsolidatedServer} {n : String} {a : AppEntry} :
    ∀ c' ∈ pushApp acc n a, c' ∈ acc ∨
      ∃ c, c ∈ acc ∧ c.name = n ∧
        c' = { c with applications := c.applications ++ [a] } := by
  induction acc with
  | nil => intro c' h; cases h
  | cons c cs ih =>
    intro c' h
    by_cases hc : c.name = n
    · simp only [pushApp] at h
      rw [if_pos hc] at h
      rcases List.mem_cons.mp h with he | hm
      · exact Or.inr ⟨c, List.mem_cons_self c cs, hc, he⟩
      · exact Or.inl (List.mem_cons_of_mem _ hm)
    · simp only [pushApp] at h
      rw [if_neg hc] at h
      rcases List.mem_cons.mp h with he | hm
      · exact Or.inl (he ▸ List.mem_cons_self c cs)
      · rcases ih c' hm with h1 | ⟨d, hd, hdn, hde⟩
        · exact Or.inl (List.mem_cons_of_mem _ h1)
        · exact Or.inr ⟨d, List.mem_cons_of_mem _ hd, hdn, hde⟩

theorem foldl_addServer_sorted :
    ∀ (rest : List MCPServer) (acc : List ConsolidatedServer),
      rest.Pairwise serverLe →
      ((acc.map (fun c => c.name)).Sorted (· < ·)) →
      (∀ c ∈ acc, appsSorted c) →
      (∀ s ∈ rest, ∀ c ∈ acc, c.name ≤ s.name) →
      (∀ s ∈ rest, ∀ c ∈ acc, c.name = s.name →
        ∀ a ∈ c.applications, a.name ≤ s.application) →
      ((List.foldl addServer acc rest).map (fun c => c.name)).Sorted (· < ·) ∧
        ∀ c ∈ List.foldl addServer acc rest, appsSorted c
  | [], _, _, h1, h2, _, _ => ⟨h1, h2⟩
  | s :: rest, acc, hpair, h1, h2, h3, h4 => by
    rw [List.foldl_cons]
    obtain ⟨hhead, htail⟩ := List.pairwise_cons.mp hpair
    by_cases hmem : s.name ∈ acc.map (fun c => c.name)
    · have hadd := addServer_of_mem acc s hmem
      apply foldl_addServer_sorted rest (addServer acc s) htail
      · rw [hadd, pushApp_names]; exact h1
      · intro c' hc'
        rw [hadd] at hc'
        rcases pushApp_mem c' hc' with horig | ⟨c, hcacc, hcn, rfl⟩
        · exact h2 c' horig
        · show ((c.applications ++ [appEntryOf s]).map (fun a => a.name)).Sorted _
          rw [List.map_append]
          refine List.pairwise_append.mpr ⟨h2 c hcacc, List.pairwise_singleton _ _, ?_⟩
          intro x hx y hy
          rcases List.mem_map.mp hx with ⟨a', ha', rfl⟩
          rcases List.mem_singleton.mp hy with rfl
          exact h4 s (List.mem_cons_self s rest) c hcacc hcn a' ha'
      · intro s' hs' c' hc'
        rw [hadd] at hc'
        rcases pushApp_mem c' hc' with horig | ⟨c, hcacc, _, rfl⟩
        · exact h3 s' (List.mem_cons_of_mem s hs') c' horig
        · exact h3 s' (List.mem_cons_of_mem s hs') c hcacc
      · intro s' hs' c' hc' hname a' ha'
        rw [hadd] at hc'
        rcases pushApp_mem c' hc' with horig | ⟨c, hcacc, hcn, rfl⟩
        · exact h4 s' (List.mem_cons_of_mem s hs') c' horig hname a' ha'
        · rcases List.mem_append.mp ha' with hold | hnew
          · exact h4 s' (List.mem_cons_of_mem s hs') c hcacc hname a' hold
          · rcases List.mem_singleton.mp hnew with rfl
            show s.application ≤ s'.application
            rcases hhead s' hs' with hlt | ⟨_, happ⟩
            · have : s.name = s'.name := hcn ▸ hname
              exact absurd (this ▸ hlt) (lt_irrefl _)
            · exact happ
    · have hadd := addServer_of_notMem acc s hmem
      apply foldl_addServer_sorted rest (addServer acc s) htail
      · rw [hadd, List.map_append]
        refine List.pairwise_append.mpr ⟨h1, List.pairwise_singleton _ _, ?_⟩
        intro x hx y hy
        rcases List.mem_singleton.mp hy with rfl
        rcases List.mem_map.mp hx with ⟨c, hcacc, rfl⟩
        show c.name < s.name
        refine lt_of_le_of_ne (h3 s (List.mem_cons_self s rest) c hcacc) ?_
        intro he
        exact hmem (he ▸ List.mem_map_of_mem (fun c => c.name) hcacc)
      · intro c' hc'
        rw [hadd] at hc'
        rcases List.mem_append.mp hc' with horig | hnew
        · exact h2 c' horig
        · rcases List.mem_singleton.mp hnew with rfl
          show ([appEntryOf s].map (fun a => a.name)).Sorted _
          exact List.pairwise_singleton _ _
      · intro s' hs' c' hc'
        rw [hadd] at hc'
        rcases List.mem_append.mp hc' with horig | hnew
        · exact h3 s' (List.mem_cons_of_mem s hs') c' horig
        · rcases List.mem_singleton.mp hnew with rfl
          show s.name ≤ s'.name
          rcases hhead s' hs' with hlt | ⟨heq, _⟩
          · exact le_of_lt hlt
          · exact le_of_eq heq
      · intro s' hs' c' hc' hname a' ha'
        rw [hadd] at hc'
        rcases List.mem_append.mp hc' with horig | hnew
        · exact h4 s' (List.mem_cons_of_mem s hs') c' horig hname a' ha'
        · rcases List.mem_singleton.mp hnew with rfl
          rcases List.mem_singleton.mp ha' with rfl
          show s.application ≤ s'.application
          rcases hhead s' hs' with hlt | ⟨_, happ⟩
          · exact absurd (hname ▸ hlt) (lt_irrefl _)
          · exact happ

/-! ## Claim theorems -/

/-- Claim C2: the consolidated rebuild output has exactly as many entries
as there are distinct server names across all applications' records. -/
theorem rebuild_length_distinct (l : List MCPServer) :
    (rebuild l).length = (l.map (fun s => s.name)).toFinset.card := by
  obtain ⟨hnd, hfin⟩ := foldl_addServer_names_nodup (sortServers l) [] (by simp)
  have e1 : (rebuild l).length
      = ((List.foldl addServer [] (sortServers l)).map (fun c => c.name)).length := by
    simp only [rebuild, consolidate, List.length_map]
  rw [e1, ← List.toFinset_card_of_nodup hnd, hfin]
  have hperm : List.Perm ((sortServers l).map (fun s => s.name))
      (l.map (fun s => s.name)) :=
    (List.perm_insertionSort serverLe l).map _
  rw [List.toFinset_eq_of_perm _ _ hperm]
  simp

/-- Claim C3: for every input server list (and any application-filter
settings), the consolidated output computed by `loadData` is
deterministically ordered — entries appear in strictly increasing
alphabetical order of server name, and within each entry the
per-application records appear in increasing alphabetical order of
application name. -/
theorem loadDataView_sorted (es : Option (List (String × Bool)))
    (l : List MCPServer) :
    ((loadDataView es l).map (fun c => c.name)).Sorted (· < ·) ∧
      List.Forall appsSorted (loadDataView es l) := by
  have hsorted : (sortServers l).Pairwise serverLe :=
    List.sorted_insertionSort serverLe l
  have hfil : (filterServers es (sortServers l)).Pairwise serverLe :=
    List.Pairwise.sublist (List.filter_sublist _) hsorted
  obtain ⟨ha, hb⟩ := foldl_addServer_sorted (filterServers es (sortServers l)) []
    hfil (by simp) (by simp) (by simp) (by simp)
  constructor
  · exact ha
  · rw [List.forall_iff_forall_mem]
    exact hb

/-- Claim C9: the dashboard's application filter keeps a server if and only
if the settings' `enabledApps` maps the server's application to something
other than `false`; an application with no entry at all (or an entirely
absent map) is treated as enabled. -/
theorem loadData_filter_keeps_iff (es : Option (List (String × Bool)))
    (l : List MCPServer) (s : MCPServer) :
    s ∈ filterServers es l ↔
      s ∈ l ∧ List.lookup s.application (es.getD []) ≠ some false := by
  simp [filterServers, List.mem_filter, keepApp_eq_true]

/-- Claim C10: the filtered log list contains exactly the entries whose
level checkbox is on, whose category checkbox is on, and — when the search
term is non-empty — whose message or details contains the term
case-insensitively; the retained entries keep their relative input order
(the output is a sublist of the input). -/
theorem filterLogs_spec (lf : LevelFilters) (cf : CategoryFilters) (q : String)
    (logs : List LogEntry) :
    (∀ e, e ∈ filterLogs lf cf q logs ↔
      e ∈ logs ∧ levelOn lf e.level = true ∧ categoryOn cf e.category = true ∧
        (q ≠ "" → (containsCI e.message q = true ∨
          ∃ d, e.details = some d ∧ containsCI d q = true))) ∧
    (filterLogs lf cf q logs).Sublist logs := by
  constructor
  · intro e
    simp only [filterLogs, List.mem_filter, keepLog_eq_true, and_assoc]
  · exact List.filter_sublist _

/-- Deserializing a config document's server entries and serializing them
back is the identity. -/
theorem fromRecord_toRecord (app : String) (l : List (String × ServerSpec)) :
    (l.map (toRecord app)).map fromRecord = l := by
  induction l with
  | nil => rfl
  | cons p ps ih =>
    rcases p with ⟨n, c, a, e, en⟩
    simp [toRecord, fromRecord, ih]

/-- Claim C8: reading an application's config document and immediately
writing the same content back yields a document equal in all semantic
fields, with every field the adapter does not understand preserved
unchanged (spec-modelled Application Adapter). -/
theorem adapter_round_trip (app : String) (d : ConfigDoc) :
    adapterWrite (adapterRead app d).1 (adapterRead app d).2 = d := by
  cases d with
  | mk servers unknown =>
    have h := fromRecord_toRecord app servers
    simp only [adapterRead, adapterWrite]
    rw [h]

/-- Claim C1: after a successful read of an application's file, an
out-of-band modification of that file makes the next `syncOne` set
`syncStatus = conflict`, leave the externally modified file untouched, and
preserve the in-memory edit (spec-modelled Sync Coordinator). -/
theorem syncOne_conflict (a : SyncApp) (c m newC : String)
    (hread : a.fileContent = some c) (hmod : newC ≠ c) :
    (syncOne (modifyDisk (editMem (readApp a) m) newC)).syncStatus = .conflict ∧
    (syncOne (modifyDisk (editMem (readApp a) m) newC)).fileContent = some newC ∧
    (syncOne (modifyDisk (editMem (readApp a) m) newC)).memContent = m := by
  have hne : ¬ (c = newC) := fun h => hmod h.symm
  simp [readApp, hread, editMem, modifyDisk, syncOne, contentHash, hne]

theorem syncOne_conflict_witness :
    (({ fileContent := some "servers-v1", lastReadHash := none,
        memContent := "", syncStatus := .pending } : SyncApp).fileContent
        = some "servers-v1") ∧
    ("servers-v2" ≠ "servers-v1") ∧
    (syncOne (modifyDisk (editMem (readApp
        { fileContent := some "servers-v1", lastReadHash := none,
          memContent := "", syncStatus := .pending }) "my-edit")
        "servers-v2")).syncStatus = .conflict :=
  ⟨rfl, by decide,
    (syncOne_conflict
      { fileContent := some "servers-v1", lastReadHash := none,
        memContent := "", syncStatus := .pending }
      "servers-v1" "my-edit" "servers-v2" rfl (by decide)).1⟩

/-- Claim C4: toggling a server to the value it already has is a no-op —
the registry state (servers and per-application sync statuses) is returned
unchanged and the result is `ok`, not an error (spec-modelled Server
Registry toggle). -/
theorem toggle_noop (r : Registry) (sn an : String) (v : Bool) (s : MCPServer)
    (hfind : r.servers.find? (fun t => t.name == sn && t.application == an)
      = some s)
    (hval : s.enabled = v) :
    toggle r sn an v = (r, .ok) := by
  simp [toggle, hfind, hval]

theorem toggle_noop_witness :
    (regOne.servers.find?
        (fun t => t.name == "filesystem" && t.application == "Cursor")
      = some ⟨"filesystem", true, some "npx", none, none, "Cursor"⟩) ∧
    toggle regOne "filesystem" "Cursor" true = (regOne, .ok) :=
  ⟨by decide,
    toggle_noop regOne "filesystem" "Cursor" true
      ⟨"filesystem", true, some "npx", none, none, "Cursor"⟩ (by decide) rfl⟩

/-- Claim C5: `toggleAll` treats every application independently — the
result state and the reported outcome of each application are functions of
that application alone, so one failure neither reverts nor blocks the
others; in the three-application scenario with one missing config file the
outcome is two successes and one error, with both successful writes
applied (spec-modelled). -/
theorem toggleAll_independent :
    (∀ (apps : List AppConfig) (sn : String) (v : Bool),
        toggleAll apps sn v
          = (apps.map (reportToggle sn v), apps.map (applyToggle sn v))) ∧
    toggleAll scenarioApps "filesystem" false =
      ([("Claude Desktop", .ok), ("Cursor", .error), ("Visual Studio Code", .ok)],
       [⟨"Claude Desktop", some [("filesystem", false), ("weather", true)]⟩,
        ⟨"Cursor", none⟩,
        ⟨"Visual Studio Code", some [("filesystem", false)]⟩]) := by
  constructor
  · intro apps sn v
    induction apps with
    | nil => rfl
    | cons a rest ih => simp [toggleAll, ih]
  · decide

/-- Claim C6 counterexample: the settings load is a shallow spread, so a
persisted document whose `enabledApps` lists only `Cursor` yields a loaded
`enabledApps` with no entry at all for `Claude Desktop`, while the claim's
deep default-merging would give it its default value `true`. -/
theorem loadSettings_shallow_counterexample :
    loadSettings partialDoc ≠ loadSettingsDeep partialDoc ∧
    List.lookup "Claude Desktop" (loadSettings partialDoc).enabledApps = none ∧
    List.lookup "Claude Desktop" (loadSettingsDeep partialDoc).enabledApps
      = some true := by
  decide

/-- Claim C6 as amended: `load()` merges shallowly — every top-level field
absent from the persisted document takes its hard-coded default and every
top-level field present takes the persisted value wholesale; entries nested
inside a present `enabledApps` are not individually defaulted, and the
claimed deep merge only coincides when `enabledApps` is absent. -/
theorem loadSettings_shallow_merge (doc : PersistedSettings) :
    (doc.enabledApps = none → loadSettings doc = loadSettingsDeep doc) ∧
    (loadSettings doc).autoStart = doc.autoStart.getD defaultSettings.autoStart ∧
    (loadSettings doc).minimizeToTray
      = doc.minimizeToTray.getD defaultSettings.minimizeToTray ∧
    (loadSettings doc).checkUpdates
      = doc.checkUpdates.getD defaultSettings.checkUpdates ∧
    (loadSettings doc).theme = doc.theme.getD defaultSettings.theme ∧
    (loadSettings doc).refreshInterval
      = doc.refreshInterval.getD defaultSettings.refreshInterval ∧
    (loadSettings doc).backupLocation
      = doc.backupLocation.getD defaultSettings.backupLocation ∧
    (loadSettings doc).backupFrequency
      = doc.backupFrequency.getD defaultSettings.backupFrequency ∧
    (loadSettings doc).logLevel = doc.logLevel.getD defaultSettings.logLevel ∧
    (loadSettings doc).enableLogs
      = doc.enableLogs.getD defaultSettings.enableLogs ∧
    (loadSettings doc).developerMode
      = doc.developerMode.getD defaultSettings.developerMode ∧
    (loadSettings doc).enabledApps
      = doc.enabledApps.getD defaultSettings.enabledApps := by
  refine ⟨?_, rfl, rfl, rfl, rfl, rfl, rfl, rfl, rfl, rfl, rfl, rfl⟩
  intro h
  have happ : (loadSettings doc).enabledApps = defaultSettings.enabledApps := by
    simp [loadSettings, h]
  show loadSettings doc = loadSettingsDeep doc
  simp only [loadSettingsDeep, h, deepMergeApps]
  rw [← happ]

theorem loadSettings_shallow_merge_witness :
    (PersistedSettings.empty.enabledApps = none) ∧
    loadSettings PersistedSettings.empty
      = loadSettingsDeep PersistedSettings.empty :=
  ⟨rfl, (loadSettings_shallow_merge PersistedSettings.empty).1 rfl⟩

/-- Claim C7 counterexample: the periodic refresh timer is hard-coded to
10000 ms and ignores the configurable `refreshInterval` (here set to 30),
and the settings operations store an interval of 500 unclamped, outside the
claimed 5–300 range. -/
theorem refreshInterval_counterexample :
    refreshTimerMs
      ≠ 1000 * (setRefreshIntervalInput defaultSettings 30).refreshInterval ∧
    (setRefreshIntervalInput defaultSettings 500).refreshInterval = 500 ∧
    ¬ ((setRefreshIntervalInput defaultSettings 500).refreshInterval
        ≤ refreshInputMax) := by
  decide

/-- Claim C7 as amended: the periodic refresh timer runs at a fixed
10000 ms (10 seconds, equal to the default `refreshInterval` of 10); the
settings form declares `min 5`/`max 300` on the interval input, but the
value stored by the settings operations is whatever the input parses to —
the 5–300 range is not enforced on stored values. -/
theorem refreshInterval_fixed_timer :
    refreshTimerMs = 10000 ∧ defaultSettings.refreshInterval = 10 ∧
    refreshInputMin = 5 ∧ refreshInputMax = 300 ∧
    ∀ (s : UserSettings) (n : Int),
      (setRefreshIntervalInput s n).refreshInterval = n :=
  ⟨rfl, rfl, rfl, rfl, fun _ _ => rfl⟩

end MCPControl
